import Mathlib

/-!
Verification development for the WebGenius crawl-and-normalize engine.

The engine's deduplication pipeline, link discovery, retry loop and
scheduler are embedded shallowly below.  Pure text passes follow the
Python code quoted in `src/DEDUPLICATION_FIXES.md` and
`src/unnamed/part_004`; parts of the engine whose code is not in the
repository (only described by the spec and the change-log documents)
are modelled from the spec and say so in their doc comments.
Python `hash` of a normalized string is modelled by the normalized
string itself; Python's `set` of strings (an unordered container) is
modelled as a duplicate-free list kept in a canonical (lexicographic)
order that is independent of insertion order.
-/

namespace WebGenius

/-- Whitespace trimming on the underlying character list (Python
`str.strip()`). -/
def trimChars (cs : List Char) : List Char :=
  ((cs.dropWhile Char.isWhitespace).reverse.dropWhile Char.isWhitespace).reverse

/-- Python `result.strip()`. -/
def strip (s : String) : String := ⟨trimChars s.data⟩

/-- Normalization used by every deduplication layer:
`result.strip().lower()` (DEDUPLICATION_FIXES.md, lines 119, 136). -/
def normalize (s : String) : String := ⟨(trimChars s.data).map Char.toLower⟩

/-- Content-level deduplication loop (DEDUPLICATION_FIXES.md, §8, lines
112-124): each candidate element result `r` with nonempty stripped text
is appended to `out` only if its normalized form is not in the
`seen_content` set; the fingerprint is added when the fragment is kept. -/
def dedupe_content_go (out : List String) (seen : List String) :
    List String → List String × List String
  | [] => (out, seen)
  | r :: rs =>
    if strip r = "" then dedupe_content_go out seen rs
    else if normalize r ∈ seen then dedupe_content_go out seen rs
    else dedupe_content_go (out ++ [r]) (normalize r :: seen) rs

/-- The content-level pass started with fresh (empty) sets, as the code
creates them at function entry (`seen_content: Set[str] = set()`,
DEDUPLICATION_FIXES.md lines 17-18). Returns (kept fragments, final
seen-content fingerprint set). -/
def dedupe_content (frags : List String) : List String × List String :=
  dedupe_content_go [] [] frags

/-- Paragraph-level deduplication (DEDUPLICATION_FIXES.md, §9, lines
130-143): a paragraph is kept iff its normalized form is nonempty and
its fingerprint has not occurred earlier in the same output. -/
def dedupe_paragraphs_go (out : List String) (seen : List String) :
    List String → List String × List String
  | [] => (out, seen)
  | p :: ps =>
    if normalize p ∈ seen ∨ normalize p = "" then dedupe_paragraphs_go out seen ps
    else dedupe_paragraphs_go (out ++ [p]) (normalize p :: seen) ps

/-- Paragraph-level pass started with fresh state. -/
def dedupe_paragraphs (ps : List String) : List String :=
  (dedupe_paragraphs_go [] [] ps).1

/-- Modelled from the spec: the final line-level pass of
`backend/main.py` (lines 658-677) is not in the repository; the spec
says it drops any line whose normalized form equals a line already
kept, while preserving short formatting lines, and the review
checklist (src/unnamed/part_002, line 132) documents the threshold:
"Very short lines (< 3 chars) preserved for formatting". -/
def dedupe_lines_go (out : List String) (seen : List String) :
    List String → List String × List String
  | [] => (out, seen)
  | l :: ls =>
    if (normalize l).length < 3 then dedupe_lines_go (out ++ [l]) seen ls
    else if normalize l ∈ seen then dedupe_lines_go out seen ls
    else dedupe_lines_go (out ++ [l]) (normalize l :: seen) ls

/-- Line-level pass started with fresh state. -/
def dedupe_lines (ls : List String) : List String :=
  (dedupe_lines_go [] [] ls).1

/-- The extraction pipeline applied to the per-element results of the
DOM walk: the content-level filter, then `'\n\n'.join`, the paragraph
pass over `content.split('\n\n')`, and the line pass. -/
def extract_pipeline (frags : List String) : String :=
  let content := String.intercalate "\n\n" (dedupe_content frags).1
  let content2 :=
    String.intercalate "\n\n" (dedupe_paragraphs (content.splitOn "\n\n"))
  String.intercalate "\n" (dedupe_lines (content2.splitOn "\n"))

/-- The two per-page tracking sets of one extraction
(`processed_elements: Set[int]`, `seen_content: Set[str]`,
DEDUPLICATION_FIXES.md lines 17-18). -/
structure TrackState where
  processed_elements : List Nat
  seen_content : List String

/-- The state both sets start from: empty, as created at the top of the
extraction function. -/
def freshTrackState : TrackState := ⟨[], []⟩

/-- One page extraction over its walk results.  The ambient state `amb`
models whatever tracking state might be left over from earlier runs;
the code never reads it, because both sets are local variables created
fresh at function entry (DEDUPLICATION_FIXES.md lines 15-18).  Returns
the output text and the tracking state this run ends with. -/
def extract_page_content (_amb : TrackState) (frags : List String) :
    String × TrackState :=
  let fresh := freshTrackState
  let run := dedupe_content_go [] fresh.seen_content frags
  (extract_pipeline frags, ⟨fresh.processed_elements, run.2⟩)

/-- Modelled from the spec: the crawl loop of `backend/main.py` is not
in the repository; the spec says each page's extraction gets its own
fresh deduplication sets and no entry leaks between pages.  The model
daemonically threads each extraction's final state into the next
extraction's ambient state, so any leak would be visible. -/
def crawl_extract (amb : TrackState) : List (List String) → List String
  | [] => []
  | d :: ds =>
    let r := extract_page_content amb d
    r.1 :: crawl_extract r.2 ds

/-- Boolean prefix test on character lists (used for the section-scope
filter on absolute URLs). -/
def listStarts : List Char → List Char → Bool
  | [], _ => true
  | _ :: _, [] => false
  | c :: cs, d :: ds => c = d && listStarts cs ds

/-- Lexicographic comparison of character lists by code point. -/
def charListLt : List Char → List Char → Bool
  | [], [] => false
  | [], _ :: _ => true
  | _ :: _, [] => false
  | c :: cs, d :: ds =>
    if c.toNat < d.toNat then true
    else if d.toNat < c.toNat then false
    else charListLt cs ds

/-- Lexicographic comparison of strings. -/
def strLt (a b : String) : Bool := charListLt a.data b.data

/-- Positional insertion keeping lexicographic order; used to give the
unordered Python `set` a canonical iteration order. -/
def insertSorted (x : String) : List String → List String
  | [] => [x]
  | y :: ys => if strLt x y then x :: y :: ys else y :: insertSorted x ys

/-- `set.add`: a no-op when the element is present, otherwise inserts
it at its canonical position.  The canonical (lexicographic) position
models the fact that a Python `set` does not remember insertion
order. -/
def pySetInsert (x : String) (s : List String) : List String :=
  if x ∈ s then s else insertSorted x s

/-- `all_hrefs.update(hrefs)` (src/unnamed/part_004, line 50). -/
def pySetUpdate (s : List String) (xs : List String) : List String :=
  xs.foldl (fun a x => pySetInsert x a) s

/-- The selector loop of `extract_links_from_section`
(src/unnamed/part_004, lines 39-53): each selector's query either
fails (inner `except`: log and `continue`) or yields the hrefs it
matched in document order, which are poured into the `all_hrefs`
set. -/
def collect_hrefs_go (acc : List String) :
    List (Except String (List String)) → List String
  | [] => acc
  | Except.error _ :: rs => collect_hrefs_go acc rs
  | Except.ok hs :: rs => collect_hrefs_go (pySetUpdate acc hs) rs

/-- `extract_links_from_section` (src/unnamed/part_004, lines 38-58):
`query` is the outcome of the primary in-page link query — either an
outer failure, in which case the fallback `return [section_url]` runs
(lines 54-57), or the per-selector results fed to the `all_hrefs` set.
The trailing resolution-and-filter step is modelled from the spec
(its code is not in the repository): hrefs are taken as already
absolute and filtered to those sharing the section prefix. -/
def extract_links_from_section (section_url : String) (secPre : String)
    (query : Except String (List (Except String (List String)))) : List String :=
  match query with
  | Except.error _ => [section_url]
  | Except.ok rs =>
    (collect_hrefs_go [] rs).filter (fun h => listStarts secPre.data h.data)

/-- Status of one PageRecord in the crawl scheduler. -/
inductive PageStatus where
  | pending
  | rendering
  | extracted
  | failed (err : String)
  deriving DecidableEq

/-- Modelled from the spec: the exponential backoff schedule of
`scrape_page_task` ("0.5s, 1s backoff",
src/SPEED_OPTIMIZATIONS_APPLIED.md lines 79-84), in milliseconds:
500ms before the first retry, doubling afterwards. -/
def backoffDelayMs (attempt : Nat) : Nat := 500 * 2 ^ attempt

/-- Modelled from the spec: the retry loop of `scrape_page_task`
(`backend/main.py` lines 738-763, absent from the repository; the
change log documents `max_retries=2` with exponential backoff).
`fetch k` is the outcome of attempt number `k` (0-based); the second
argument is the number of retries still allowed.  Returns (number of
attempts made, backoff delays slept, final outcome). -/
def scrape_page_task_run (fetch : Nat → Except String String) :
    Nat → Nat → Nat × List Nat × Except String String
  | k, 0 => (1, [], fetch k)
  | k, n + 1 =>
    match fetch k with
    | Except.ok c => (1, [], Except.ok c)
    | Except.error _ =>
      let r := scrape_page_task_run fetch (k + 1) n
      (r.1 + 1, backoffDelayMs k :: r.2.1, r.2.2)

/-- `scrape_page_task(link, max_retries=2)`: start at attempt 0 with
the full retry budget. -/
def scrape_page_task (fetch : Nat → Except String String)
    (max_retries : Nat) : Nat × List Nat × Except String String :=
  scrape_page_task_run fetch 0 max_retries

/-- Terminal status a page reaches from its final fetch outcome. -/
def task_final_status : Except String String → PageStatus
  | Except.ok _ => PageStatus.extracted
  | Except.error e => PageStatus.failed e

/-- Recognizer for the `Rendering` state. -/
def isRendering : PageStatus → Bool
  | PageStatus.rendering => true
  | _ => false

/-- Modelled from the spec: a state of the crawl scheduler — the
statuses of all PageRecords plus the free permits of the fixed-size
semaphore (`max_concurrent`, src/SPEED_OPTIMIZATIONS_APPLIED.md lines
11-18; the scheduler code is absent from the repository). -/
structure SchedState where
  pages : List PageStatus
  permits : Nat

/-- Number of PageRecords currently in the `Rendering` state. -/
def countRendering (s : SchedState) : Nat := s.pages.countP isRendering

/-- Modelled from the spec: scheduler transitions.  A `Pending` page
enters `Rendering` only by taking a semaphore permit; a `Rendering`
page reaches a terminal state (`Extracted` or `Failed`) and returns
its permit. -/
inductive SchedStep : SchedState → SchedState → Prop where
  | start (ps : List PageStatus) (n i : Nat)
      (hi : ps[i]? = some PageStatus.pending) :
      SchedStep ⟨ps, n + 1⟩ ⟨ps.set i PageStatus.rendering, n⟩
  | finish (ps : List PageStatus) (n i : Nat) (t : PageStatus)
      (hi : ps[i]? = some PageStatus.rendering)
      (ht : t = PageStatus.extracted ∨ ∃ e, t = PageStatus.failed e) :
      SchedStep ⟨ps, n⟩ ⟨ps.set i t, n + 1⟩

/-- States reachable from the initial state: `npages` discovered pages,
all `Pending`, with all `limit` permits free. -/
inductive SchedReach (limit npages : Nat) : SchedState → Prop where
  | init : SchedReach limit npages ⟨List.replicate npages PageStatus.pending, limit⟩
  | step {s s' : SchedState} : SchedReach limit npages s → SchedStep s s' →
      SchedReach limit npages s'

/-- Lifecycle of the discovery page handle. -/
inductive PagePhase where
  | opened
  | closed
  deriving DecidableEq

/-- `await page.close()`. -/
def closePage (_ : PagePhase) : PagePhase := PagePhase.closed

/-- Python `try/finally` semantics specialised to the discovery phase:
the `finally` action runs on the page handle whether the body returned
normally or raised, and the body's outcome (value or re-raised
exception) is passed through unchanged. -/
def tryFinallyClose (body : Except String (List String)) (ph : PagePhase) :
    PagePhase × Except String (List String) :=
  match body with
  | Except.ok links => (closePage ph, Except.ok links)
  | Except.error e => (closePage ph, Except.error e)

/-- The link-discovery phase of `scrape_section`
(src/unnamed/part_004, lines 70-77): open a fresh page, run
`extract_links_from_section` inside `try`, close the page in
`finally`.  `body` is the outcome of the `try` body. -/
def scrape_section_discovery (body : Except String (List String)) :
    PagePhase × Except String (List String) :=
  tryFinallyClose body PagePhase.opened

/-! ### Lemmas about the content-level pass -/

theorem dedupe_content_go_inv (xs : List String) :
    ∀ out seen, (out.map normalize).reverse = seen → seen.Nodup →
      ((dedupe_content_go out seen xs).1.map normalize).reverse
          = (dedupe_content_go out seen xs).2
        ∧ (dedupe_content_go out seen xs).2.Nodup := by
  induction xs with
  | nil => intro out seen h1 h2; exact ⟨h1, h2⟩
  | cons r rs ih =>
    intro out seen h1 h2
    simp only [dedupe_content_go]
    split
    · exact ih out seen h1 h2
    · split
      · exact ih out seen h1 h2
      · rename_i hmem
        refine ih (out ++ [r]) (normalize r :: seen) ?_ ?_
        · simp [h1]
        · exact List.nodup_cons.mpr ⟨fun hc => hmem hc, h2⟩

theorem dedupe_content_go_seen_mono (xs : List String) :
    ∀ out seen x, x ∈ seen → x ∈ (dedupe_content_go out seen xs).2 := by
  induction xs with
  | nil => intro out seen x hx; exact hx
  | cons r rs ih =>
    intro out seen x hx
    simp only [dedupe_content_go]
    split
    · exact ih out seen x hx
    · split
      · exact ih out seen x hx
      · exact ih (out ++ [r]) (normalize r :: seen) x (List.mem_cons_of_mem _ hx)

theorem dedupe_content_go_records (xs : List String) :
    ∀ out seen r, r ∈ xs → strip r ≠ "" →
      normalize r ∈ (dedupe_content_go out seen xs).2 := by
  induction xs with
  | nil => intro out seen r hr _; cases hr
  | cons x xs ih =>
    intro out seen r hr hne
    simp only [dedupe_content_go]
    rcases List.mem_cons.mp hr with h | h
    · subst h
      split
      · exact absurd ‹strip r = ""› hne
      · split
        · exact dedupe_content_go_seen_mono xs out seen (normalize r) ‹normalize r ∈ seen›
        · exact dedupe_content_go_seen_mono xs (out ++ [r]) (normalize r :: seen)
            (normalize r) (List.mem_cons_self _ _)
    · split
      · exact ih out seen r h hne
      · split
        · exact ih out seen r h hne
        · exact ih (out ++ [x]) (normalize x :: seen) r h hne

theorem dedupe_content_go_sublist (xs : List String) :
    ∀ out seen, ∃ t, (dedupe_content_go out seen xs).1 = out ++ t
      ∧ t.Sublist xs := by
  induction xs with
  | nil => intro out seen; exact ⟨[], by simp [dedupe_content_go], List.nil_sublist []⟩
  | cons r rs ih =>
    intro out seen
    simp only [dedupe_content_go]
    split
    · obtain ⟨t, ht1, ht2⟩ := ih out seen
      exact ⟨t, ht1, ht2.cons r⟩
    · split
      · obtain ⟨t, ht1, ht2⟩ := ih out seen
        exact ⟨t, ht1, ht2.cons r⟩
      · obtain ⟨t, ht1, ht2⟩ := ih (out ++ [r]) (normalize r :: seen)
        refine ⟨r :: t, ?_, ht2.cons₂ r⟩
        rw [ht1, List.append_assoc]
        rfl

/-! ### Lemmas about the paragraph-level pass -/

theorem dedupe_paragraphs_go_sublist (xs : List String) :
    ∀ out seen, ∃ t, (dedupe_paragraphs_go out seen xs).1 = out ++ t
      ∧ t.Sublist xs := by
  induction xs with
  | nil => intro out seen; exact ⟨[], by simp [dedupe_paragraphs_go], List.nil_sublist []⟩
  | cons p ps ih =>
    intro out seen
    simp only [dedupe_paragraphs_go]
    split
    · obtain ⟨t, ht1, ht2⟩ := ih out seen
      exact ⟨t, ht1, ht2.cons p⟩
    · obtain ⟨t, ht1, ht2⟩ := ih (out ++ [p]) (normalize p :: seen)
      refine ⟨p :: t, ?_, ht2.cons₂ p⟩
      rw [ht1, List.append_assoc]
      rfl

/-! ### Lemmas about the line-level pass -/

theorem dedupe_lines_go_sublist (xs : List String) :
    ∀ out seen, ∃ t, (dedupe_lines_go out seen xs).1 = out ++ t
      ∧ t.Sublist xs := by
  induction xs with
  | nil => intro out seen; exact ⟨[], by simp [dedupe_lines_go], List.nil_sublist []⟩
  | cons l ls ih =>
    intro out seen
    simp only [dedupe_lines_go]
    split
    · obtain ⟨t, ht1, ht2⟩ := ih (out ++ [l]) seen
      refine ⟨l :: t, ?_, ht2.cons₂ l⟩
      rw [ht1, List.append_assoc]
      rfl
    · split
      · obtain ⟨t, ht1, ht2⟩ := ih out seen
        exact ⟨t, ht1, ht2.cons l⟩
      · obtain ⟨t, ht1, ht2⟩ := ih (out ++ [l]) (normalize l :: seen)
        refine ⟨l :: t, ?_, ht2.cons₂ l⟩
        rw [ht1, List.append_assoc]
        rfl

theorem dedupe_lines_go_nodup (xs : List String) :
    ∀ out seen,
      ((out.filter (fun l => 3 ≤ (normalize l).length)).map normalize).reverse = seen →
      seen.Nodup →
      (((dedupe_lines_go out seen xs).1.filter
          (fun l => 3 ≤ (normalize l).length)).map normalize).Nodup := by
  induction xs with
  | nil =>
    intro out seen h1 h2
    simp only [dedupe_lines_go]
    rw [← List.nodup_reverse, h1]
    exact h2
  | cons l ls ih =>
    intro out seen h1 h2
    simp only [dedupe_lines_go]
    split
    · rename_i hshort
      refine ih (out ++ [l]) seen ?_ h2
      have hl : ¬ 3 ≤ (normalize l).length := by omega
      simp [List.filter_append, hl, h1]
    · split
      · exact ih out seen h1 h2
      · rename_i hlong hmem
        refine ih (out ++ [l]) (normalize l :: seen) ?_ ?_
        · have hl : 3 ≤ (normalize l).length := by omega
          simp [List.filter_append, hl, h1]
        · exact List.nodup_cons.mpr ⟨fun hc => hmem hc, h2⟩

theorem dedupe_lines_go_short (xs : List String) :
    ∀ out seen,
      (dedupe_lines_go out seen xs).1.filter (fun l => (normalize l).length < 3)
        = out.filter (fun l => (normalize l).length < 3)
            ++ xs.filter (fun l => (normalize l).length < 3) := by
  induction xs with
  | nil => intro out seen; simp [dedupe_lines_go]
  | cons l ls ih =>
    intro out seen
    simp only [dedupe_lines_go]
    split
    · rename_i hshort
      rw [ih (out ++ [l]) seen]
      simp [List.filter_append, List.filter_cons, hshort, List.append_assoc]
    · split
      · rename_i hlong _
        rw [ih out seen]
        simp [List.filter_cons, hlong]
      · rename_i hlong _
        rw [ih (out ++ [l]) (normalize l :: seen)]
        simp [List.filter_append, List.filter_cons, hlong, List.append_assoc]

/-! ### Claims about the deduplication pipeline -/

/-- Claim C1: within one page extraction, every normalized (trimmed,
case-folded) fragment appears in the output at most once — every
candidate fragment appended to the output passed the seen-content
check, so the output's normalized forms are pairwise distinct — and
after the pass the fingerprint of every non-blank candidate is in the
seen-content set whether the fragment was kept or skipped. -/
theorem content_dedup_unique (frags : List String) :
    ((dedupe_content frags).1.map normalize).Nodup
      ∧ ∀ r, r ∈ frags → strip r ≠ "" →
        normalize r ∈ (dedupe_content frags).2 := by
  constructor
  · have h := dedupe_content_go_inv frags [] [] (by simp) List.nodup_nil
    simp only [dedupe_content]
    rw [← List.nodup_reverse, h.1]
    exact h.2
  · intro r hr hne
    exact dedupe_content_go_records frags [] [] r hr hne

/-- Concrete run of Claim C1: on the fragment list
`["Hello", "hello", ""]` the output's normalized forms are pairwise
distinct, and the fingerprint of the non-blank fragment `"Hello"` is
recorded. -/
theorem content_dedup_unique_witness :
    ((dedupe_content ["Hello", "hello", ""]).1.map normalize).Nodup
      ∧ normalize "Hello" ∈ (dedupe_content ["Hello", "hello", ""]).2 :=
  ⟨(content_dedup_unique ["Hello", "hello", ""]).1,
   (content_dedup_unique ["Hello", "hello", ""]).2 "Hello" (by decide) (by decide)⟩

/-- Claim C2: the two per-page deduplication sets are created fresh for
each page's extraction and never leak across pages: even when every
extraction's final tracking state is handed to the next extraction as
its ambient state, each page's result is exactly the one computed from
empty sets, so no entry added during one extraction is visible to any
other extraction. -/
theorem crawl_pages_isolated (amb : TrackState) (docs : List (List String))
    (i : Nat) :
    (crawl_extract amb docs)[i]?
      = (docs[i]?).map (fun d => (extract_page_content freshTrackState d).1) := by
  induction docs generalizing amb i with
  | nil => simp [crawl_extract]
  | cons d ds ih =>
    cases i with
    | zero => simp [crawl_extract, extract_page_content]
    | succ n => simpa [crawl_extract] using ih _ n

/-- Claim C6: extraction is idempotent — the tracking sets are created
fresh at function entry, so a second run on the same unchanged
document, even when handed the first run's leftover tracking state,
produces byte-identical output. -/
theorem extraction_idempotent (amb : TrackState) (frags : List String) :
    (extract_page_content (extract_page_content amb frags).2 frags).1
      = (extract_page_content amb frags).1 := rfl

/-- Claim C7: deduplication never reorders — the surviving fragments of
the content-level pass form a subsequence of the candidate sequence,
and likewise the paragraph-level pass and the line-level pass output
their kept items as a subsequence of their input, so document order is
preserved. -/
theorem dedup_never_reorders (frags ps ls : List String) :
    (dedupe_content frags).1.Sublist frags
      ∧ (dedupe_paragraphs ps).Sublist ps
      ∧ (dedupe_lines ls).Sublist ls := by
  refine ⟨?_, ?_, ?_⟩
  · obtain ⟨t, ht1, ht2⟩ := dedupe_content_go_sublist frags [] []
    simpa [dedupe_content, ht1] using ht2
  · obtain ⟨t, ht1, ht2⟩ := dedupe_paragraphs_go_sublist ps [] []
    simpa [dedupe_paragraphs, ht1] using ht2
  · obtain ⟨t, ht1, ht2⟩ := dedupe_lines_go_sublist ls [] []
    simpa [dedupe_lines, ht1] using ht2

/-- Claim C8: after the line-level pass, any two distinct output lines
whose normalized length reaches the 3-character formatting threshold
have different normalized forms, while lines below the threshold are
preserved exactly (in order, repetitions included). -/
theorem line_dedup_threshold (ls : List String) :
    (((dedupe_lines ls).filter
        (fun l => 3 ≤ (normalize l).length)).map normalize).Nodup
      ∧ (dedupe_lines ls).filter (fun l => (normalize l).length < 3)
          = ls.filter (fun l => (normalize l).length < 3) := by
  constructor
  · simp only [dedupe_lines]
    exact dedupe_lines_go_nodup ls [] [] (by simp) List.nodup_nil
  · simpa [dedupe_lines] using dedupe_lines_go_short ls [] []

/-! ### Lemmas about link discovery -/

theorem mem_insertSorted (x y : String) (s : List String) :
    y ∈ insertSorted x s ↔ y = x ∨ y ∈ s := by
  induction s with
  | nil => simp [insertSorted]
  | cons z zs ih =>
    simp only [insertSorted]
    split
    · simp [List.mem_cons]
    · simp only [List.mem_cons, ih]
      tauto

theorem nodup_insertSorted (x : String) (s : List String) (hx : x ∉ s)
    (h : s.Nodup) : (insertSorted x s).Nodup := by
  induction s with
  | nil => simp [insertSorted]
  | cons z zs ih =>
    obtain ⟨hz, hzs⟩ := List.nodup_cons.mp h
    have hxz : x ≠ z := fun hc => hx (hc ▸ List.mem_cons_self z zs)
    have hxzs : x ∉ zs := fun hc => hx (List.mem_cons_of_mem z hc)
    simp only [insertSorted]
    split
    · exact List.nodup_cons.mpr ⟨by simp [List.mem_cons, hxz, hxzs], h⟩
    · refine List.nodup_cons.mpr ⟨?_, ih hxzs hzs⟩
      rw [mem_insertSorted]
      rintro (hc | hc)
      · exact hxz hc.symm
      · exact hz hc

theorem mem_pySetInsert (x y : String) (s : List String) :
    y ∈ pySetInsert x s ↔ y = x ∨ y ∈ s := by
  simp only [pySetInsert]
  split
  · rename_i hx
    constructor
    · exact Or.inr
    · rintro (rfl | h)
      · exact hx
      · exact h
  · exact mem_insertSorted x y s

theorem nodup_pySetInsert (x : String) (s : List String) (h : s.Nodup) :
    (pySetInsert x s).Nodup := by
  simp only [pySetInsert]
  split
  · exact h
  · exact nodup_insertSorted x s ‹x ∉ s› h

theorem mem_pySetUpdate (xs : List String) :
    ∀ s y, y ∈ pySetUpdate s xs ↔ y ∈ s ∨ y ∈ xs := by
  induction xs with
  | nil => intro s y; simp [pySetUpdate]
  | cons x xs ih =>
    intro s y
    simp only [pySetUpdate, List.foldl_cons]
    rw [show List.foldl (fun a x => pySetInsert x a) (pySetInsert x s) xs
          = pySetUpdate (pySetInsert x s) xs from rfl, ih, mem_pySetInsert]
    simp [List.mem_cons]
    tauto

theorem nodup_pySetUpdate (xs : List String) :
    ∀ s, s.Nodup → (pySetUpdate s xs).Nodup := by
  induction xs with
  | nil => intro s h; exact h
  | cons x xs ih =>
    intro s h
    simp only [pySetUpdate, List.foldl_cons]
    exact ih (pySetInsert x s) (nodup_pySetInsert x s h)

theorem mem_collect_hrefs_go (rs : List (Except String (List String))) :
    ∀ acc y, y ∈ collect_hrefs_go acc rs
      ↔ y ∈ acc ∨ ∃ hs, Except.ok hs ∈ rs ∧ y ∈ hs := by
  induction rs with
  | nil => intro acc y; simp [collect_hrefs_go]
  | cons r rs ih =>
    intro acc y
    match r with
    | Except.error e =>
      simp only [collect_hrefs_go, ih]
      simp [List.mem_cons]
    | Except.ok hs =>
      simp only [collect_hrefs_go, ih, mem_pySetUpdate]
      simp only [List.mem_cons]
      constructor
      · rintro ((h | h) | ⟨hs2, h2, h3⟩)
        · exact Or.inl h
        · exact Or.inr ⟨hs, Or.inl rfl, h⟩
        · exact Or.inr ⟨hs2, Or.inr h2, h3⟩
      · rintro (h | ⟨hs2, (h2 | h2), h3⟩)
        · exact Or.inl (Or.inl h)
        · injection h2 with h4
          exact Or.inl (Or.inr (h4 ▸ h3))
        · exact Or.inr ⟨hs2, h2, h3⟩

theorem nodup_collect_hrefs_go (rs : List (Except String (List String))) :
    ∀ acc, acc.Nodup → (collect_hrefs_go acc rs).Nodup := by
  induction rs with
  | nil => intro acc h; exact h
  | cons r rs ih =>
    intro acc h
    match r with
    | Except.error e => exact ih acc h
    | Except.ok hs => exact ih (pySetUpdate acc hs) (nodup_pySetUpdate hs acc h)

/-! ### Claims about link discovery -/

/-- Claim C3, counterexample: link discovery does not return candidate
URLs in first-seen (document) order.  The hrefs are poured into the
unordered `all_hrefs` set (`all_hrefs = set()`,
src/unnamed/part_004 lines 39-50), which forgets insertion order, so
for the page whose anchors appear in document order
`["s/b", "s/a"]` (both in scope, both unseen) the returned list is the
set's canonical order `["s/a", "s/b"]`, not the document order
`["s/b", "s/a"]` the claim requires. -/
theorem extract_links_order_counterexample :
    extract_links_from_section "s/" "s/"
        (Except.ok [Except.ok ["s/b", "s/a"]]) = ["s/a", "s/b"]
      ∧ (["s/a", "s/b"] : List String) ≠ ["s/b", "s/a"] := by
  constructor
  · decide
  · decide

/-- Claim C3 as amended: for every root page, link discovery returns
the in-scope candidate URLs de-duplicated by exact URL — the result
has no duplicates and contains exactly the hrefs produced by some
successful selector query that carry the section prefix — but in the
iteration order of the unordered `all_hrefs` set rather than in
first-seen document order. -/
theorem extract_links_amended (u secPre : String)
    (rs : List (Except String (List String))) :
    (extract_links_from_section u secPre (Except.ok rs)).Nodup
      ∧ ∀ x, x ∈ extract_links_from_section u secPre (Except.ok rs)
          ↔ ((∃ hs, Except.ok hs ∈ rs ∧ x ∈ hs)
              ∧ listStarts secPre.data x.data = true) := by
  constructor
  · simp only [extract_links_from_section]
    exact (nodup_collect_hrefs_go rs [] List.nodup_nil).filter _
  · intro x
    simp only [extract_links_from_section, List.mem_filter,
      mem_collect_hrefs_go rs [] x, List.not_mem_nil, false_or]

/-- Claim C4: if the primary in-page link query fails, link discovery
returns a list containing exactly the root URL — never an empty
list — so the caller always receives at least one page. -/
theorem extract_links_fallback (u secPre e : String) :
    extract_links_from_section u secPre (Except.error e) = [u]
      ∧ extract_links_from_section u secPre (Except.error e) ≠ [] := by
  refine ⟨rfl, ?_⟩
  simp [extract_links_from_section]

/-! ### Lemmas about the retry loop -/

theorem scrape_run_all_fail (fetch : Nat → Except String String)
    (hf : ∀ k, ∃ e, fetch k = Except.error e) :
    ∀ n k, scrape_page_task_run fetch k n
      = (n + 1, (List.range n).map (fun i => backoffDelayMs (k + i)),
          fetch (k + n)) := by
  intro n
  induction n with
  | zero => intro k; simp [scrape_page_task_run]
  | succ n ih =>
    intro k
    obtain ⟨e, he⟩ := hf k
    simp only [scrape_page_task_run, he, ih (k + 1), Prod.mk.injEq, true_and]
    refine ⟨?_, congrArg fetch (by omega)⟩
    rw [List.range_succ_eq_map, List.map_cons, List.map_map]
    congr 1
    apply List.map_congr_left
    intro i _
    exact congrArg backoffDelayMs (by omega)

/-- Claim C5: a page whose fetch fails on every attempt is retried
through exactly `retry_budget + 1` attempts, the final outcome is the
last attempt's error (retained in the `Failed` status), and with the
code's budget of two additional attempts the backoff delays slept
between attempts are 0.5s then 1s. -/
theorem retry_bound (fetch : Nat → Except String String) (budget : Nat)
    (hf : ∀ k, ∃ e, fetch k = Except.error e) :
    (scrape_page_task fetch budget).1 = budget + 1
      ∧ (scrape_page_task fetch budget).2.2 = fetch budget
      ∧ (∀ e, fetch budget = Except.error e →
          task_final_status (scrape_page_task fetch budget).2.2
            = PageStatus.failed e)
      ∧ (scrape_page_task fetch 2).2.1 = [500, 1000] := by
  have h := scrape_run_all_fail fetch hf
  refine ⟨?_, ?_, ?_, ?_⟩
  · rw [scrape_page_task, h budget 0]
  · rw [scrape_page_task, h budget 0]; simp
  · intro e he
    rw [scrape_page_task, h budget 0]
    simp [he, task_final_status]
  · rw [scrape_page_task, h 2 0]
    rfl

/-- Concrete run of Claim C5: a fetch that times out on every attempt,
with the code's budget of two retries, makes exactly three attempts,
ends with the last error, is marked `Failed` with that error, and
sleeps 500ms then 1000ms. -/
theorem retry_bound_witness :
    (scrape_page_task (fun _ => Except.error "timeout") 2).1 = 2 + 1
      ∧ (scrape_page_task (fun _ => Except.error "timeout") 2).2.2
          = (fun _ => (Except.error "timeout" : Except String String)) 2
      ∧ (∀ e, (fun _ => (Except.error "timeout" : Except String String)) 2
            = Except.error e →
          task_final_status
              (scrape_page_task (fun _ => Except.error "timeout") 2).2.2
            = PageStatus.failed e)
      ∧ (scrape_page_task (fun _ => Except.error "timeout") 2).2.1
          = [500, 1000] :=
  retry_bound (fun _ => Except.error "timeout") 2 (fun _ => ⟨"timeout", rfl⟩)

/-! ### Lemmas about the crawl scheduler -/

theorem countP_set_of_getElem (p : PageStatus → Bool) :
    ∀ (l : List PageStatus) (i : Nat) (a b : PageStatus), l[i]? = some a →
      (l.set i b).countP p + (if p a then 1 else 0)
        = l.countP p + (if p b then 1 else 0) := by
  intro l
  induction l with
  | nil => intro i a b h; simp at h
  | cons x xs ih =>
    intro i a b h
    cases i with
    | zero =>
      simp only [List.getElem?_cons_zero, Option.some.injEq] at h
      subst h
      simp only [List.set_cons_zero, List.countP_cons]
      omega
    | succ n =>
      simp only [List.getElem?_cons_succ] at h
      simp only [List.set_cons_succ, List.countP_cons]
      have := ih n a b h
      omega

theorem countP_replicate_pending (n : Nat) :
    (List.replicate n PageStatus.pending).countP isRendering = 0 := by
  induction n with
  | zero => rfl
  | succ n ih => simp [List.replicate_succ, List.countP_cons, isRendering, ih]

theorem sched_invariant (limit npages : Nat) :
    ∀ s, SchedReach limit npages s → countRendering s + s.permits = limit := by
  intro s h
  induction h with
  | init => simp [countRendering, countP_replicate_pending]
  | step hr hs ih =>
    cases hs with
    | start ps n i hi =>
      have hc := countP_set_of_getElem isRendering ps i PageStatus.pending
        PageStatus.rendering hi
      rw [show isRendering PageStatus.pending = false from rfl,
        show isRendering PageStatus.rendering = true from rfl] at hc
      simp at hc
      simp only [countRendering] at ih ⊢
      omega
    | finish ps n i t hi ht =>
      have hc := countP_set_of_getElem isRendering ps i PageStatus.rendering t hi
      have hft : isRendering t = false := by
        rcases ht with rfl | ⟨e, rfl⟩ <;> rfl
      rw [hft, show isRendering PageStatus.rendering = true from rfl] at hc
      simp at hc
      simp only [countRendering] at ih ⊢
      omega

/-- Claim C9: bounded concurrency — in every state of the crawl
scheduler reachable from the initial state (all pages `Pending`, all
`concurrency_limit` semaphore permits free), the number of PageRecords
simultaneously in the `Rendering` state never exceeds the limit. -/
theorem bounded_concurrency (limit npages : Nat) (s : SchedState)
    (h : SchedReach limit npages s) : countRendering s ≤ limit := by
  have := sched_invariant limit npages s h
  omega

/-- Concrete instance of Claim C9: the initial state of a crawl of
three pages under a concurrency limit of two satisfies the bound. -/
theorem bounded_concurrency_witness :
    countRendering ⟨List.replicate 3 PageStatus.pending, 2⟩ ≤ 2 :=
  bounded_concurrency 2 3 ⟨List.replicate 3 PageStatus.pending, 2⟩
    SchedReach.init

/-- Claim C10: during the link-discovery phase of `scrape_section`, the
browser page opened for discovery is closed on every execution path —
whether the `try` body returns link lists or raises, the `finally`
block closes the page before control leaves the phase, and the body's
outcome is passed through unchanged. -/
theorem discovery_page_closed (body : Except String (List String)) :
    (scrape_section_discovery body).1 = PagePhase.closed
      ∧ (scrape_section_discovery body).2 = body := by
  cases body <;>
    simp [scrape_section_discovery, tryFinallyClose, closePage]

end WebGenius
